import Mathlib

/-!
# Insertion sort over sensor records (`hw3_solution.cpp`)

A shallow embedding of the comparator `compareSensor`, the sortedness check
`isSorted` and the exchange-based `insertion_sort` of `hw3_solution.cpp`,
together with the properties the specification states about them.

Modelling conventions.

* A `vector<Sensor>` is a `List Sensor`; `s[k]` is the checked access `s[k]?`,
  and an access outside the vector makes the run end in `Exec.outOfRange`.
* A `double` is a `Score`: an exact rational number, an infinity, or NaN.  The
  embedded code only compares scores, so no rounding occurs; `Score.lt` and
  `Score.gt` are the comparisons `<` and `>` of IEEE 754, false whenever an
  operand is NaN.
* Loop counters are natural numbers.  The source declares `i` and `j` as `int`;
  the model covers vectors whose size fits in an `int`.
* Loops are written by recursion.  The inner loop of `insertion_sort` recurses
  on its own counter `j`.  The two counting-up loops carry an iteration budget;
  a run that exhausts it ends in `Exec.outOfFuel`, so a result `Exec.done`
  says that the loop really left through its guard.
* A run of `insertion_sort` carries two ghost counters, the number of calls of
  `comp` and the number of calls of `swap`.
-/

namespace SortArrays

/-- A value of type `double`: minus infinity, a number, plus infinity, or NaN. -/
inductive Score where
  | negInf
  | num (q : ℚ)
  | posInf
  | nan
  deriving DecidableEq

/-- Numerals denote numbers. -/
instance (n : Nat) : OfNat Score n := ⟨Score.num n⟩

/-- The comparison `a < b` of two `double` values: false when an operand is
NaN, otherwise the order of the extended numbers. -/
def Score.lt (a b : Score) : Bool :=
  match a, b with
  | Score.num p, Score.num q => decide (p < q)
  | Score.negInf, Score.num _ => true
  | Score.negInf, Score.posInf => true
  | Score.num _, Score.posInf => true
  | _, _ => false

/-- The comparison `a > b` of two `double` values. -/
def Score.gt (a b : Score) : Bool :=
  Score.lt b a

/-- The comparison `a == b` of two `double` values: NaN equals nothing, not
even itself. -/
def Score.eq (a b : Score) : Bool :=
  decide (a ≠ Score.nan ∧ a = b)

/-- The record type `struct Sensor`: identifier, average and the readings. -/
structure Sensor where
  id : Int
  avg : Score
  readings : List Score
  deriving DecidableEq

/-- The comparator `compareSensor(lhs, rhs)` (source lines 132-146). -/
def compareSensor (lhs rhs : Sensor) : Bool :=
  if lhs.avg.gt rhs.avg then true
  else if lhs.avg.lt rhs.avg then false
  else decide (lhs.id < rhs.id)

/-- How a run of a loop ends: normally with a value, by an access outside the
vector, or by exhausting the iteration budget of the model. -/
inductive Exec (β : Type) where
  | done (b : β)
  | outOfRange
  | outOfFuel
  deriving DecidableEq

/-- The machine state of a call of `insertion_sort`: the vector `s`, and two
ghost counters for the calls of `comp` and of `swap` made so far. -/
structure Run where
  s : List Sensor
  calls : Nat
  swaps : Nat
  deriving DecidableEq

/-- The loop of `isSorted` (source lines 165-169), entered with counter `k`:
`for (; k < s.size(); k++) if (compareSensor(s[k], s[k - 1])) return false;`
followed by `return true`. -/
def isSortedLoop : Nat → Nat → List Sensor → Exec Bool
  | 0, k, s => if k < s.length then Exec.outOfFuel else Exec.done true
  | fuel + 1, k, s =>
    if k < s.length then
      match s[k]?, s[k - 1]? with
      | some a, some b =>
        if compareSensor a b then Exec.done false
        else isSortedLoop fuel (k + 1) s
      | _, _ => Exec.outOfRange
    else Exec.done true

/-- The check `isSorted(s)` (source lines 160-171): the loop starts at `k = 1`. -/
def isSorted (s : List Sensor) : Exec Bool :=
  isSortedLoop s.length 1 s

/-- The inner loop of `insertion_sort` (source lines 192-195), entered with
counter `j`:
`for (; j > 0 && comp(s[j], s[j - 1]); j--) swap(s[j], s[j - 1]);`.
The guard short-circuits: with `j = 0` the relation `comp` is not called. -/
def innerLoop (comp : Sensor → Sensor → Bool) : Nat → Run → Exec Run
  | 0, st => Exec.done st
  | j + 1, st =>
    match st.s[j + 1]?, st.s[j]? with
    | some a, some b =>
      if comp a b then
        innerLoop comp j
          { s := (st.s.set (j + 1) b).set j a, calls := st.calls + 1, swaps := st.swaps + 1 }
      else Exec.done { st with calls := st.calls + 1 }
    | _, _ => Exec.outOfRange

/-- The outer loop of `insertion_sort` (source lines 190-196), entered with
counter `i`: `for (; i < s.size(); i++) { inner loop from j = i }`. -/
def outerLoop (comp : Sensor → Sensor → Bool) : Nat → Nat → Run → Exec Run
  | 0, i, st => if i < st.s.length then Exec.outOfFuel else Exec.done st
  | fuel + 1, i, st =>
    if i < st.s.length then
      match innerLoop comp i st with
      | Exec.done st' => outerLoop comp fuel (i + 1) st'
      | Exec.outOfRange => Exec.outOfRange
      | Exec.outOfFuel => Exec.outOfFuel
    else Exec.done st

/-- The call `insertion_sort(s, comp)` (source lines 173-197): the outer loop
starts at `i = 0` with both ghost counters at zero. -/
def insertion_sort (s : List Sensor) (comp : Sensor → Sensor → Bool) : Exec Run :=
  outerLoop comp s.length 0 { s := s, calls := 0, swaps := 0 }

/-- A strict weak ordering, as the glossary of the specification defines it:
irreflexive, asymmetric, transitive, with a transitive incomparability relation. -/
structure StrictWeakOrdering (comp : Sensor → Sensor → Bool) : Prop where
  irrefl : ∀ a, comp a a = false
  asymm : ∀ a b, comp a b = true → comp b a = false
  trans : ∀ a b c, comp a b = true → comp b c = true → comp a c = true
  incomp_trans : ∀ a b c, comp a b = false → comp b a = false →
    comp b c = false → comp c b = false → comp a c = false ∧ comp c a = false

/-- A strict weak ordering on the records that satisfy `P`: the four properties
of the glossary, asked of those records only. -/
structure StrictWeakOrderingOn (P : Sensor → Prop) (comp : Sensor → Sensor → Bool) : Prop where
  irrefl : ∀ a, P a → comp a a = false
  asymm : ∀ a b, P a → P b → comp a b = true → comp b a = false
  trans : ∀ a b c, P a → P b → P c → comp a b = true → comp b c = true → comp a c = true
  incomp_trans : ∀ a b c, P a → P b → P c → comp a b = false → comp b a = false →
    comp b c = false → comp c b = false → comp a c = false ∧ comp c a = false

/-- The contract that the specification states for the ordering relation
(section 4.1), read on `double` scores: `compareSensor(a, b)` is true exactly
when `a.avg > b.avg`, or `a.avg == b.avg` and `a.id < b.id`, and false in every
other case. -/
def OrderContract (a b : Sensor) : Prop :=
  (compareSensor a b = true ↔
    (a.avg.gt b.avg = true ∨ (a.avg.eq b.avg = true ∧ a.id < b.id))) ∧
  (compareSensor a b = false ↔
    ¬ (a.avg.gt b.avg = true ∨ (a.avg.eq b.avg = true ∧ a.id < b.id)))

/-- No adjacent pair `(prev, next)` of `s` has `comp next prev`. -/
def AdjSorted (comp : Sensor → Sensor → Bool) (s : List Sensor) : Prop :=
  ∀ k, 1 ≤ k → k < s.length → ∀ a b, s[k]? = some a → s[k - 1]? = some b → comp a b = false

/-- No pair `(earlier, later)` of `s`, adjacent or not, has `comp later earlier`. -/
def PairSorted (comp : Sensor → Sensor → Bool) (s : List Sensor) : Prop :=
  s.Pairwise (fun a b => comp b a = false)

/-- The store of `Sensor` objects that pointers refer to: the object held at
an address, if there is one. -/
abbrev Store := Nat → Option Sensor

/-- The comparator `compareSensorPtr(lhs, rhs)` (source lines 148-158):
`return compareSensor(*lhs, *rhs);`.  The pointers are addresses of the store;
dereferencing an address that holds no object gives `none`. -/
def compareSensorPtr (mem : Store) (lhs rhs : Nat) : Option Bool :=
  match mem lhs, mem rhs with
  | some a, some b => some (compareSensor a b)
  | _, _ => none

/-- The blocks of the `switch` statement of `test` (source lines 272-347), in
the order of the source. -/
inductive Block where
  | case1
  | case2
  | case3
  | case4
  | case5
  | case6
  | case7to10
  | dflt
  deriving DecidableEq

/-- One block of a `switch` with what decides the control flow around it: the
`case` labels written before it, whether the label `default:` is written
before it, and whether the block ends with `break`. -/
structure Arm where
  labels : List Int
  isDefault : Bool
  block : Block
  hasBreak : Bool

/-- The `switch (testId)` of `test` (source lines 272-347): the blocks of the
cases 1 to 4 end with `break` (lines 277, 282, 287, 294); the blocks of case 5
(lines 296-309) and of case 6 (lines 310-323) do not; the labels 7, 8, 9, 10
share one block, followed by `break` (line 342); `default` comes last. -/
def testArms : List Arm :=
  [ { labels := [1], isDefault := false, block := Block.case1, hasBreak := true },
    { labels := [2], isDefault := false, block := Block.case2, hasBreak := true },
    { labels := [3], isDefault := false, block := Block.case3, hasBreak := true },
    { labels := [4], isDefault := false, block := Block.case4, hasBreak := true },
    { labels := [5], isDefault := false, block := Block.case5, hasBreak := false },
    { labels := [6], isDefault := false, block := Block.case6, hasBreak := false },
    { labels := [7, 8, 9, 10], isDefault := false, block := Block.case7to10, hasBreak := true },
    { labels := [], isDefault := true, block := Block.dflt, hasBreak := true } ]

/-- The trace of a call of `test`: the blocks entered, in order, and whether
the call ended in a failed `assert`. -/
structure Trace where
  blocks : List Block
  aborted : Bool
  deriving DecidableEq

/-- Execution of a `switch` from a block on: the block runs; a failed `assert`
in it ends the program; otherwise `break` leaves the `switch`, and without
`break` control falls through into the next block.  `passes b` tells whether
all assertions of block `b` hold. -/
def runArms (passes : Block → Bool) : List Arm → Trace
  | [] => { blocks := [], aborted := false }
  | arm :: rest =>
    if passes arm.block then
      if arm.hasBreak then { blocks := [arm.block], aborted := false }
      else
        { blocks := arm.block :: (runArms passes rest).blocks,
          aborted := (runArms passes rest).aborted }
    else { blocks := [arm.block], aborted := true }

/-- The jump of a `switch` to the label `case v:`: the blocks from that label
on, if the label exists. -/
def enterCase (v : Int) : List Arm → Option (List Arm)
  | [] => none
  | arm :: rest => if v ∈ arm.labels then some (arm :: rest) else enterCase v rest

/-- The jump of a `switch` to the label `default:`. -/
def enterDefault : List Arm → Option (List Arm)
  | [] => none
  | arm :: rest => if arm.isDefault then some (arm :: rest) else enterDefault rest

/-- The control flow of `test(testId)` (source lines 213-348) through its
`switch`: jump to the matching `case` label, or to `default` when there is
none, and run from there.  The preparation of the random vectors before the
`switch` and the contents of the blocks are not part of this model. -/
def test (passes : Block → Bool) (testId : Int) : Trace :=
  match enterCase testId testArms with
  | some arms => runArms passes arms
  | none =>
    match enterDefault testArms with
    | some arms => runArms passes arms
    | none => { blocks := [], aborted := false }

/-- The relation between two entries of a vector whose elements carry their
input index: an entry that came later in the input stands before one that came
earlier only if `comp` says it must precede it. -/
def KeepsOrder (comp : Sensor → Sensor → Bool) (t1 t2 : Nat × Sensor) : Prop :=
  t2.1 < t1.1 → comp t1.2 t2.2 = true

/-! ## The comparator -/

theorem Score.lt_irrefl (a : Score) : a.lt a = false := by
  cases a <;> simp [Score.lt]

theorem Score.lt_asymm {a b : Score} (h : a.lt b = true) : b.lt a = false := by
  cases a <;> cases b <;> simp_all [Score.lt]
  exact le_of_lt h

theorem Score.lt_trans {a b c : Score} (h1 : a.lt b = true) (h2 : b.lt c = true) :
    a.lt c = true := by
  cases a <;> cases b <;> cases c <;> simp_all [Score.lt]
  exact h1.trans h2

/-- Two scores that are not NaN and of which neither is less are equal. -/
theorem Score.eq_of_not_lt {a b : Score} (ha : a ≠ Score.nan) (hb : b ≠ Score.nan)
    (h1 : a.lt b = false) (h2 : b.lt a = false) : a = b := by
  cases a <;> cases b <;> simp_all [Score.lt]
  exact le_antisymm h2 h1

theorem Score.lt_ne {a b : Score} (h : a.lt b = true) : a ≠ b := by
  intro e
  rw [e, Score.lt_irrefl] at h
  exact Bool.noConfusion h

theorem Score.eq_eq_true_iff (a b : Score) :
    a.eq b = true ↔ (a ≠ Score.nan ∧ a = b) := by
  simp [Score.eq]

/-- What `compareSensor` computes on any two records, NaN included. -/
theorem compareSensor_eq_true_iff (a b : Sensor) :
    compareSensor a b = true ↔
      (b.avg.lt a.avg = true ∨
        (b.avg.lt a.avg = false ∧ a.avg.lt b.avg = false ∧ a.id < b.id)) := by
  unfold compareSensor Score.gt
  cases h1 : b.avg.lt a.avg <;> cases h2 : a.avg.lt b.avg <;> simp

theorem compareSensor_eq_false_iff (a b : Sensor) :
    compareSensor a b = false ↔
      (b.avg.lt a.avg = false ∧ (a.avg.lt b.avg = true ∨ b.id ≤ a.id)) := by
  unfold compareSensor Score.gt
  cases h1 : b.avg.lt a.avg <;> cases h2 : a.avg.lt b.avg <;> simp

/-- When a score is NaN `compareSensor` compares the identifiers. -/
theorem compareSensor_nan (a b : Sensor) (h : a.avg = Score.nan ∨ b.avg = Score.nan) :
    compareSensor a b = decide (a.id < b.id) := by
  unfold compareSensor Score.gt
  rcases h with h | h <;> rw [h] <;> cases b.avg <;> cases a.avg <;> simp_all [Score.lt]

theorem compareSensor_true_of_ne_nan {a b : Sensor} (ha : a.avg ≠ Score.nan)
    (hb : b.avg ≠ Score.nan) :
    compareSensor a b = true ↔ (b.avg.lt a.avg = true ∨ (a.avg = b.avg ∧ a.id < b.id)) := by
  rw [compareSensor_eq_true_iff]
  constructor
  · rintro (h | ⟨h1, h2, h3⟩)
    · exact Or.inl h
    · exact Or.inr ⟨Score.eq_of_not_lt ha hb h2 h1, h3⟩
  · rintro (h | ⟨h1, h2⟩)
    · exact Or.inl h
    · cases h : b.avg.lt a.avg with
      | true => exact Or.inl rfl
      | false =>
        refine Or.inr ⟨rfl, ?_, h2⟩
        rw [h1, Score.lt_irrefl]

theorem compareSensor_false_of_ne_nan {a b : Sensor} (ha : a.avg ≠ Score.nan)
    (hb : b.avg ≠ Score.nan) :
    compareSensor a b = false ↔ (a.avg.lt b.avg = true ∨ (a.avg = b.avg ∧ b.id ≤ a.id)) := by
  rw [compareSensor_eq_false_iff]
  constructor
  · rintro ⟨h1, h2 | h2⟩
    · exact Or.inl h2
    · cases h : a.avg.lt b.avg with
      | true => exact Or.inl rfl
      | false => exact Or.inr ⟨Score.eq_of_not_lt ha hb h h1, h2⟩
  · rintro (h | ⟨h1, h2⟩)
    · exact ⟨Score.lt_asymm h, Or.inl h⟩
    · refine ⟨?_, Or.inr h2⟩
      rw [h1, Score.lt_irrefl]

/-- The comparator never puts two records each before the other, NaN or not. -/
theorem compareSensor_asymm (a b : Sensor) (h : compareSensor a b = true) :
    compareSensor b a = false := by
  rw [compareSensor_eq_true_iff] at h
  rw [compareSensor_eq_false_iff]
  rcases h with h | ⟨h1, h2, h3⟩
  · exact ⟨Score.lt_asymm h, Or.inl h⟩
  · exact ⟨h2, Or.inr (le_of_lt h3)⟩

/-- On the records whose score is not NaN `compareSensor` is a strict weak
ordering. -/
theorem compareSensor_swoOn :
    StrictWeakOrderingOn (fun a => a.avg ≠ Score.nan) compareSensor := by
  refine ⟨?_, ?_, ?_, ?_⟩
  · intro a ha
    rw [compareSensor_false_of_ne_nan ha ha]
    exact Or.inr ⟨rfl, le_refl _⟩
  · intro a b _ _ h
    exact compareSensor_asymm a b h
  · intro a b c ha hb hc h1 h2
    rw [compareSensor_true_of_ne_nan ha hb] at h1
    rw [compareSensor_true_of_ne_nan hb hc] at h2
    rw [compareSensor_true_of_ne_nan ha hc]
    rcases h1 with h1 | ⟨h1, h1'⟩ <;> rcases h2 with h2 | ⟨h2, h2'⟩
    · exact Or.inl (Score.lt_trans h2 h1)
    · exact Or.inl (h2 ▸ h1)
    · exact Or.inl (h1 ▸ h2)
    · exact Or.inr ⟨h1.trans h2, h1'.trans h2'⟩
  · intro a b c ha hb hc h1 h2 h3 h4
    rw [compareSensor_false_of_ne_nan ha hb] at h1
    rw [compareSensor_false_of_ne_nan hb ha] at h2
    rw [compareSensor_false_of_ne_nan hb hc] at h3
    rw [compareSensor_false_of_ne_nan hc hb] at h4
    have e1 : a.avg = b.avg ∧ a.id = b.id := by
      rcases h1 with h1 | ⟨h1, h1'⟩ <;> rcases h2 with h2 | ⟨h2, h2'⟩
      · rw [Score.lt_asymm h2] at h1; exact Bool.noConfusion h1
      · exact absurd h2.symm (Score.lt_ne h1)
      · exact absurd h1.symm (Score.lt_ne h2)
      · exact ⟨h1, le_antisymm h2' h1'⟩
    have e2 : b.avg = c.avg ∧ b.id = c.id := by
      rcases h3 with h3 | ⟨h3, h3'⟩ <;> rcases h4 with h4 | ⟨h4, h4'⟩
      · rw [Score.lt_asymm h4] at h3; exact Bool.noConfusion h3
      · exact absurd h4.symm (Score.lt_ne h3)
      · exact absurd h3.symm (Score.lt_ne h4)
      · exact ⟨h3, le_antisymm h4' h3'⟩
    rw [compareSensor_false_of_ne_nan ha hc, compareSensor_false_of_ne_nan hc ha]
    exact ⟨Or.inr ⟨e1.1.trans e2.1, (e1.2.trans e2.2).ge⟩,
      Or.inr ⟨(e1.1.trans e2.1).symm, (e1.2.trans e2.2).le⟩⟩

/-- In a strict weak ordering "does not precede" is transitive. -/
theorem StrictWeakOrdering.negTrans {comp : Sensor → Sensor → Bool}
    (h : StrictWeakOrdering comp) (a b c : Sensor)
    (hab : comp a b = false) (hbc : comp b c = false) : comp a c = false := by
  by_contra hac
  have hac : comp a c = true := by simpa using hac
  have hba : comp b a = false := by
    by_contra hba
    have hba : comp b a = true := by simpa using hba
    have := h.trans b a c hba hac
    rw [hbc] at this
    exact Bool.noConfusion this
  have hcb : comp c b = false := by
    by_contra hcb
    have hcb : comp c b = true := by simpa using hcb
    have := h.trans a c b hac hcb
    rw [hab] at this
    exact Bool.noConfusion this
  have := (h.incomp_trans a b c hab hba hbc hcb).1
  rw [hac] at this
  exact Bool.noConfusion this

/-! ## The inner loop -/

theorem getElem?_split (L R : List Sensor) (x : Sensor) :
    (L ++ x :: R)[L.length]? = some x := by
  induction L with
  | nil => simp
  | cons a L ih => simpa using ih

theorem getElem?_split_succ (L R : List Sensor) (y x : Sensor) :
    (L ++ y :: x :: R)[L.length + 1]? = some x := by
  have : L ++ y :: x :: R = (L ++ [y]) ++ x :: R := by simp
  rw [this]
  have h2 : L.length + 1 = (L ++ [y]).length := by simp
  rw [h2]
  exact getElem?_split _ _ _

theorem set_set_split (L R : List Sensor) (y x : Sensor) :
    ((L ++ y :: x :: R).set (L.length + 1) y).set L.length x = L ++ x :: y :: R := by
  induction L with
  | nil => simp
  | cons a L ih => simp [ih]

/-- What the inner loop does when it is entered at the element `x` that follows
the prefix `L`: it moves `x` to the left over a block `L2` of elements that `x`
must precede, and stops at the left boundary or at the first element that `x`
need not precede. -/
theorem innerLoop_spec (comp : Sensor → Sensor → Bool) :
    ∀ (j : Nat) (L R : List Sensor) (x : Sensor) (st : Run),
      L.length = j → st.s = L ++ x :: R →
      ∃ L1 L2, L = L1 ++ L2 ∧ (∀ y ∈ L2, comp x y = true) ∧
        (∀ z, L1.getLast? = some z → comp x z = false) ∧
        innerLoop comp j st = Exec.done
          { s := L1 ++ x :: (L2 ++ R),
            calls := st.calls + L2.length + (if L1 = [] then 0 else 1),
            swaps := st.swaps + L2.length } := by
  intro j
  induction j with
  | zero =>
    intro L R x st hL hs
    have hL0 : L = [] := List.length_eq_zero.mp hL
    subst hL0
    refine ⟨[], [], rfl, by simp, by simp, ?_⟩
    cases st
    simp at hs
    simp [innerLoop, hs]
  | succ j ih =>
    intro L R x st hL hs
    have hne : L ≠ [] := by
      intro h
      rw [h] at hL
      simp at hL
    obtain ⟨L', y, rfl⟩ : ∃ L' y, L = L' ++ [y] :=
      ⟨L.dropLast, L.getLast hne, (List.dropLast_append_getLast hne).symm⟩
    have hL' : L'.length = j := by simpa using hL
    have hs' : st.s = L' ++ y :: x :: R := by simp [hs]
    have g1 : st.s[j + 1]? = some x := by
      rw [hs', ← hL']; exact getElem?_split_succ _ _ _ _
    have g0 : st.s[j]? = some y := by
      rw [hs', ← hL']; exact getElem?_split _ _ _
    cases hc : comp x y with
    | true =>
      have hset : (st.s.set (j + 1) y).set j x = L' ++ x :: y :: R := by
        rw [hs', ← hL']; exact set_set_split _ _ _ _
      obtain ⟨L1, L2, hsplit, hall, hlast, hrun⟩ :=
        ih L' (y :: R) x
          { s := (st.s.set (j + 1) y).set j x, calls := st.calls + 1, swaps := st.swaps + 1 }
          hL' hset
      refine ⟨L1, L2 ++ [y], by simp [hsplit], ?_, hlast, ?_⟩
      · intro z hz
        rcases List.mem_append.mp hz with hz | hz
        · exact hall z hz
        · have : z = y := by simpa using hz
          rw [this]; exact hc
      · simp only [innerLoop, g1, g0, hc, if_true]
        rw [hrun]
        simp only [List.length_append, List.length_singleton, List.append_assoc,
          List.singleton_append]
        congr 1
        simp only [Run.mk.injEq, true_and]
        constructor <;> omega
    | false =>
      refine ⟨L' ++ [y], [], by simp, by simp, ?_, ?_⟩
      · intro z hz
        have : z = y := by simpa using hz.symm
        rw [this]; exact hc
      · simp only [innerLoop, g1, g0, hc]
        simp [hs]

/-- The inner loop entered at any position `i` inside the vector. -/
theorem innerLoop_at (comp : Sensor → Sensor → Bool) (i : Nat) (st : Run)
    (hi : i < st.s.length) :
    ∃ L1 L2 x R, st.s = (L1 ++ L2) ++ x :: R ∧ (L1 ++ L2).length = i ∧
      (∀ y ∈ L2, comp x y = true) ∧
      (∀ z, L1.getLast? = some z → comp x z = false) ∧
      innerLoop comp i st = Exec.done
        { s := L1 ++ x :: (L2 ++ R),
          calls := st.calls + L2.length + (if L1 = [] then 0 else 1),
          swaps := st.swaps + L2.length } := by
  have hsplit : st.s = st.s.take i ++ st.s[i] :: st.s.drop (i + 1) := by
    rw [← List.drop_eq_getElem_cons hi, List.take_append_drop]
  have hlen : (st.s.take i).length = i := by
    rw [List.length_take]; omega
  obtain ⟨L1, L2, h1, h2, h3, h4⟩ :=
    innerLoop_spec comp i (st.s.take i) (st.s.drop (i + 1)) st.s[i] st hlen hsplit
  refine ⟨L1, L2, st.s[i], st.s.drop (i + 1), ?_, ?_, h2, h3, h4⟩
  · rw [← h1]; exact hsplit
  · rw [← h1]; exact hlen

/-! ## The outer loop -/

/-- The loop rule for the outer loop: a property that every pass of the inner
loop carries from `i` to `i + 1` holds at `i = size` when the loop is left, and
the loop is left through its guard whenever the budget covers the remaining
iterations. -/
theorem outerLoop_rule (comp : Sensor → Sensor → Bool) (Inv : Nat → Run → Prop) (n : Nat)
    (step : ∀ i st, i < n → st.s.length = n → Inv i st →
      ∃ st', innerLoop comp i st = Exec.done st' ∧ st'.s.length = n ∧ Inv (i + 1) st') :
    ∀ fuel i st, st.s.length = n → i ≤ n → n - i ≤ fuel → Inv i st →
      ∃ st', outerLoop comp fuel i st = Exec.done st' ∧ st'.s.length = n ∧ Inv n st' := by
  intro fuel
  induction fuel with
  | zero =>
    intro i st hn hi hf hinv
    have : i = n := by omega
    subst this
    refine ⟨st, ?_, hn, hinv⟩
    simp [outerLoop, hn]
  | succ fuel ih =>
    intro i st hn hi hf hinv
    by_cases hlt : i < n
    · obtain ⟨st1, hrun, hn1, hinv1⟩ := step i st hlt hn hinv
      obtain ⟨st2, hrun2, hn2, hinv2⟩ := ih (i + 1) st1 hn1 (by omega) (by omega) hinv1
      refine ⟨st2, ?_, hn2, hinv2⟩
      have hlt' : i < st.s.length := by omega
      simp only [outerLoop, hlt', if_true, hrun]
      exact hrun2
    · have : i = n := by omega
      subst this
      refine ⟨st, ?_, hn, hinv⟩
      simp [outerLoop, hn]

/-- The length of the vector after a pass of the inner loop. -/
theorem length_after_pass (L1 L2 R : List Sensor) (x : Sensor) :
    (L1 ++ x :: (L2 ++ R)).length = ((L1 ++ L2) ++ x :: R).length := by
  simp only [List.length_append, List.length_cons]
  omega

/-- A pass of the inner loop permutes the vector. -/
theorem perm_after_pass (L1 L2 R : List Sensor) (x : Sensor) :
    (L1 ++ x :: (L2 ++ R)).Perm ((L1 ++ L2) ++ x :: R) := by
  rw [List.append_assoc]
  apply List.Perm.append_left
  exact (@List.perm_middle Sensor x L2 R).symm

/-- The outer loop, started at `i = 0` on a vector `S` with a budget of at
least `size` iterations, ends normally with a permutation of `S`. -/
theorem outerLoop_perm (comp : Sensor → Sensor → Bool) (S : List Sensor) (c w fuel : Nat)
    (hf : S.length ≤ fuel) :
    ∃ st, outerLoop comp fuel 0 { s := S, calls := c, swaps := w } = Exec.done st ∧
      st.s.Perm S := by
  obtain ⟨st, h1, _, h3⟩ :=
    outerLoop_rule comp (fun _ st => st.s.Perm S) S.length
      (by
        intro i st hi hn hinv
        obtain ⟨L1, L2, x, R, hs, _, _, _, hrun⟩ := innerLoop_at comp i st (by omega)
        refine ⟨_, hrun, ?_, ?_⟩
        · show (L1 ++ x :: (L2 ++ R)).length = S.length
          rw [length_after_pass, ← hs, hn]
        · show (L1 ++ x :: (L2 ++ R)).Perm S
          exact (perm_after_pass L1 L2 R x).trans (hs ▸ hinv))
      fuel 0 { s := S, calls := c, swaps := w } rfl (Nat.zero_le _) (by omega)
      (List.Perm.refl S)
  exact ⟨st, h1, h3⟩

/-- On a vector without an adjacent inversion every pass of the inner loop stops
at once: the outer loop ends normally, leaves the vector as it was, makes no
exchange and calls `comp` once per element after the first. -/
theorem outerLoop_adjSorted (comp : Sensor → Sensor → Bool) (S : List Sensor)
    (hS : AdjSorted comp S) (c w fuel : Nat) (hf : S.length ≤ fuel) :
    ∃ st, outerLoop comp fuel 0 { s := S, calls := c, swaps := w } = Exec.done st ∧
      st.s = S ∧ st.swaps = w ∧ st.calls = c + (S.length - 1) := by
  obtain ⟨st, h1, _, h3⟩ :=
    outerLoop_rule comp
      (fun i st => st.s = S ∧ st.swaps = w ∧ st.calls = c + (i - 1)) S.length
      (by
        intro i st hi hn hinv
        obtain ⟨hs0, hw0, hc0⟩ := hinv
        obtain ⟨L1, L2, x, R, hs, hlen, hall, _, hrun⟩ := innerLoop_at comp i st (by omega)
        have hL2 : L2 = [] := by
          rcases List.eq_nil_or_concat L2 with hnil | ⟨L2', y, hy⟩
          · exact hnil
          · exfalso
            rw [List.concat_eq_append] at hy
            have hxy : comp x y = true := hall y (by rw [hy]; simp)
            have hS' : S = (L1 ++ L2') ++ y :: x :: R := by
              rw [← hs0, hs, hy]; simp
            have hlen' : (L1 ++ L2').length + 1 = i := by
              rw [hy] at hlen
              simp only [List.length_append, List.length_singleton] at hlen ⊢
              omega
            have g1 : S[i]? = some x := by
              rw [hS', ← hlen']; exact getElem?_split_succ _ _ _ _
            have g0 : S[i - 1]? = some y := by
              have : i - 1 = (L1 ++ L2').length := by omega
              rw [hS', this]; exact getElem?_split _ _ _
            have := hS i (by omega) (by omega) x y g1 g0
            rw [hxy] at this
            exact Bool.noConfusion this
        subst hL2
        refine ⟨_, hrun, ?_, ?_, ?_, ?_⟩
        · show (L1 ++ x :: ([] ++ R)).length = S.length
          rw [length_after_pass, ← hs, hn]
        · show L1 ++ x :: ([] ++ R) = S
          rw [← hs0, hs]; simp
        · show st.swaps + ([] : List Sensor).length = w
          simpa using hw0
        · show st.calls + ([] : List Sensor).length + (if L1 = [] then 0 else 1) = c + (i + 1 - 1)
          have hl1 : L1.length = i := by simpa using hlen
          by_cases h0 : L1 = []
          · have : i = 0 := by rw [← hl1, h0]; rfl
            simp [h0, hc0, this]
          · have : 0 < i := by
              rw [← hl1]; exact List.length_pos.mpr h0
            simp only [h0, if_false, List.length_nil, hc0]
            omega)
      fuel 0 { s := S, calls := c, swaps := w } rfl (Nat.zero_le _) (by omega)
      ⟨rfl, rfl, rfl⟩
  exact ⟨st, h1, h3⟩

/-! ## Sortedness -/

/-- The loop of `isSorted`, entered at `k ≥ 1` with a budget that covers the
remaining iterations, ends normally, and answers `true` exactly when no
position from `k` on is an adjacent inversion. -/
theorem isSortedLoop_spec : ∀ (fuel k : Nat) (s : List Sensor), 1 ≤ k → s.length - k ≤ fuel →
    ∃ r, isSortedLoop fuel k s = Exec.done r ∧
      (r = true ↔ ∀ m, k ≤ m → m < s.length →
        ∀ a b, s[m]? = some a → s[m - 1]? = some b → compareSensor a b = false) := by
  intro fuel
  induction fuel with
  | zero =>
    intro k s hk hf
    have hge : ¬ k < s.length := by omega
    refine ⟨true, by simp [isSortedLoop, hge], ?_⟩
    simp only [true_iff]
    intro m hm hm'
    omega
  | succ fuel ih =>
    intro k s hk hf
    by_cases hlt : k < s.length
    · have g1 : s[k]? = some s[k] := List.getElem?_eq_getElem hlt
      have hlt1 : k - 1 < s.length := by omega
      have g0 : s[k - 1]? = some s[k - 1] := List.getElem?_eq_getElem hlt1
      cases hc : compareSensor s[k] s[k - 1] with
      | true =>
        refine ⟨false, by simp [isSortedLoop, hlt, g1, g0, hc], ?_⟩
        constructor
        · intro h; exact Bool.noConfusion h
        · intro h
          have := h k (le_refl k) hlt _ _ g1 g0
          rw [hc] at this
          exact Bool.noConfusion this
      | false =>
        obtain ⟨r, hr, hiff⟩ := ih (k + 1) s (by omega) (by omega)
        refine ⟨r, by simp [isSortedLoop, hlt, g1, g0, hc, hr], ?_⟩
        rw [hiff]
        constructor
        · intro h m hm hm' a b ha hb
          rcases Nat.eq_or_lt_of_le hm with he | hgt
          · subst he
            rw [g1] at ha
            rw [g0] at hb
            cases ha
            cases hb
            exact hc
          · exact h m hgt hm' a b ha hb
        · intro h m hm hm' a b ha hb
          exact h m (by omega) hm' a b ha hb
    · refine ⟨true, by simp [isSortedLoop, hlt], ?_⟩
      simp only [true_iff]
      intro m hm hm'
      omega

/-- The check `isSorted` always answers, and answers `true` exactly on the
vectors without an adjacent inversion under `compareSensor`. -/
theorem isSorted_spec (s : List Sensor) :
    ∃ r, isSorted s = Exec.done r ∧ (r = true ↔ AdjSorted compareSensor s) := by
  obtain ⟨r, hr, hiff⟩ := isSortedLoop_spec s.length 1 s (le_refl 1) (by omega)
  exact ⟨r, hr, hiff⟩

theorem isSorted_eq_true_iff (s : List Sensor) :
    isSorted s = Exec.done true ↔ AdjSorted compareSensor s := by
  obtain ⟨r, hr, hiff⟩ := isSorted_spec s
  rw [hr, ← hiff]
  constructor
  · intro h; injection h
  · intro h; rw [h]

/-! ## Independence of the iteration budget -/

/-- A run of the outer loop that ends normally ends in the same state under
every larger budget. -/
theorem outerLoop_budget (comp : Sensor → Sensor → Bool) :
    ∀ (fuel i : Nat) (st r : Run), outerLoop comp fuel i st = Exec.done r →
      ∀ fuel', fuel ≤ fuel' → outerLoop comp fuel' i st = Exec.done r := by
  intro fuel
  induction fuel with
  | zero =>
    intro i st r h fuel' _
    by_cases hlt : i < st.s.length
    · simp [outerLoop, hlt] at h
    · cases fuel' with
      | zero => exact h
      | succ f =>
        simp only [outerLoop, hlt, if_false] at h ⊢
        exact h
  | succ fuel ih =>
    intro i st r h fuel' hle
    obtain ⟨f, rfl⟩ : ∃ f, fuel' = f + 1 := ⟨fuel' - 1, by omega⟩
    by_cases hlt : i < st.s.length
    · simp only [outerLoop, hlt, if_true] at h ⊢
      cases hin : innerLoop comp i st with
      | done st' =>
        rw [hin] at h
        simp only at h ⊢
        exact ih (i + 1) st' r h f (by omega)
      | outOfRange => rw [hin] at h; simp at h
      | outOfFuel => rw [hin] at h; simp at h
    · simp only [outerLoop, hlt, if_false] at h ⊢
      exact h

/-! ## Sortedness from asymmetry alone -/

/-- Inserting `x` between a block it need not precede and a block it must
precede keeps a vector free of adjacent inversions, for any relation that never
holds in both directions. -/
theorem chain_after_pass {comp : Sensor → Sensor → Bool}
    (hasym : ∀ a b, comp a b = true → comp b a = false)
    (L1 L2 : List Sensor) (x : Sensor)
    (hL : List.Chain' (fun a b => comp b a = false) (L1 ++ L2))
    (h2 : ∀ y ∈ L2, comp x y = true)
    (h1 : ∀ z, L1.getLast? = some z → comp x z = false) :
    List.Chain' (fun a b => comp b a = false) (L1 ++ x :: L2) := by
  rw [List.chain'_append] at hL ⊢
  obtain ⟨c1, c2, _⟩ := hL
  refine ⟨c1, ?_, ?_⟩
  · rw [List.chain'_cons']
    refine ⟨?_, c2⟩
    intro y hy
    exact hasym x y (h2 y (List.mem_of_mem_head? hy))
  · intro z hz y hy
    have hy' : x = y := by simpa using hy
    rw [← hy']
    exact h1 z hz

/-- A chain without inversion between neighbours has no adjacent inversion at
any index. -/
theorem adjSorted_of_chain (comp : Sensor → Sensor → Bool) :
    ∀ l : List Sensor, List.Chain' (fun a b => comp b a = false) l → AdjSorted comp l := by
  intro l
  induction l with
  | nil =>
    intro _ k _ hk
    simp at hk
  | cons a l ih =>
    intro h
    cases l with
    | nil =>
      intro k h1 hk
      simp at hk
      omega
    | cons b l' =>
      rw [List.chain'_cons] at h
      have ih' := ih h.2
      intro k h1 hk x y hx hy
      rcases Nat.eq_or_lt_of_le h1 with h1' | h1'
      · subst h1'
        have ex : b = x := by simpa using hx
        have ey : a = y := by simpa using hy
        rw [← ex, ← ey]; exact h.1
      · obtain ⟨m, rfl⟩ : ∃ m, k = m + 2 := ⟨k - 2, by omega⟩
        have hk' : m + 1 < (b :: l').length := by
          simp only [List.length_cons] at hk ⊢
          omega
        have hx' : (b :: l')[m + 1]? = some x := by simpa using hx
        have hy' : (b :: l')[m + 1 - 1]? = some y := by simpa using hy
        exact ih' (m + 1) (by omega) hk' x y hx' hy'

/-- For a relation that never holds in both directions the outer loop ends
normally with a vector without adjacent inversion. -/
theorem outerLoop_adjSorted_of_asymm {comp : Sensor → Sensor → Bool}
    (hasym : ∀ a b, comp a b = true → comp b a = false)
    (S : List Sensor) (c w fuel : Nat) (hf : S.length ≤ fuel) :
    ∃ st, outerLoop comp fuel 0 { s := S, calls := c, swaps := w } = Exec.done st ∧
      AdjSorted comp st.s := by
  obtain ⟨st, h1, h2, h3⟩ :=
    outerLoop_rule comp
      (fun i st => List.Chain' (fun a b => comp b a = false) (st.s.take i)) S.length
      (by
        intro i st hi hn hinv
        obtain ⟨L1, L2, x, R, hs, hlen, hall, hlast, hrun⟩ := innerLoop_at comp i st (by omega)
        refine ⟨_, hrun, ?_, ?_⟩
        · show (L1 ++ x :: (L2 ++ R)).length = S.length
          rw [length_after_pass, ← hs, hn]
        · show List.Chain' (fun a b => comp b a = false) ((L1 ++ x :: (L2 ++ R)).take (i + 1))
          have e : L1 ++ x :: (L2 ++ R) = (L1 ++ x :: L2) ++ R := by simp
          have hl : (L1 ++ x :: L2).length = i + 1 := by
            simp only [List.length_append, List.length_cons] at hlen ⊢
            omega
          rw [e, List.take_left' hl]
          have hpre : st.s.take i = L1 ++ L2 := by
            rw [hs]; exact List.take_left' hlen
          rw [hpre] at hinv
          exact chain_after_pass hasym L1 L2 x hinv hall hlast)
      fuel 0 { s := S, calls := c, swaps := w } rfl (Nat.zero_le _) (by omega)
      (by simp)
  refine ⟨st, h1, ?_⟩
  have : st.s.take S.length = st.s := by
    rw [← h2]; exact List.take_length _
  rw [this] at h3
  exact adjSorted_of_chain comp st.s h3

/-! ## Sortedness for an ordering of the records of the vector -/

/-- In a strict weak ordering on the records with `P`, "does not precede" is
transitive among those records. -/
theorem StrictWeakOrderingOn.negTransOn {P : Sensor → Prop} {comp : Sensor → Sensor → Bool}
    (h : StrictWeakOrderingOn P comp) (a b c : Sensor) (pa : P a) (pb : P b) (pc : P c)
    (hab : comp a b = false) (hbc : comp b c = false) : comp a c = false := by
  by_contra hac
  have hac : comp a c = true := by simpa using hac
  have hba : comp b a = false := by
    by_contra hba
    have hba : comp b a = true := by simpa using hba
    have := h.trans b a c pb pa pc hba hac
    rw [hbc] at this
    exact Bool.noConfusion this
  have hcb : comp c b = false := by
    by_contra hcb
    have hcb : comp c b = true := by simpa using hcb
    have := h.trans a c b pa pc pb hac hcb
    rw [hab] at this
    exact Bool.noConfusion this
  have := (h.incomp_trans a b c pa pb pc hab hba hbc hcb).1
  rw [hac] at this
  exact Bool.noConfusion this

/-- A strict weak ordering of all records is one on the records with `P`. -/
theorem StrictWeakOrdering.on {comp : Sensor → Sensor → Bool} (h : StrictWeakOrdering comp)
    (P : Sensor → Prop) : StrictWeakOrderingOn P comp :=
  ⟨fun a _ => h.irrefl a, fun a b _ _ => h.asymm a b, fun a b c _ _ _ => h.trans a b c,
    fun a b c _ _ _ => h.incomp_trans a b c⟩

/-- The sorted part grows by one element in a pass of the inner loop, when the
relation is a strict weak ordering on the records involved. -/
theorem pairSorted_after_pass_on {P : Sensor → Prop} {comp : Sensor → Sensor → Bool}
    (hswo : StrictWeakOrderingOn P comp)
    (L1 L2 : List Sensor) (x : Sensor) (hP1 : ∀ l ∈ L1, P l) (hP2 : ∀ l ∈ L2, P l) (hx : P x)
    (hL : PairSorted comp (L1 ++ L2))
    (h2 : ∀ y ∈ L2, comp x y = true)
    (h1 : ∀ z, L1.getLast? = some z → comp x z = false) :
    PairSorted comp (L1 ++ x :: L2) := by
  unfold PairSorted at hL ⊢
  rw [List.pairwise_append] at hL ⊢
  obtain ⟨p1, p2, p12⟩ := hL
  have hx1 : ∀ l ∈ L1, comp x l = false := by
    intro l hl
    rcases List.eq_nil_or_concat L1 with hnil | ⟨L1', z, hz⟩
    · rw [hnil] at hl; exact absurd hl (List.not_mem_nil l)
    · rw [List.concat_eq_append] at hz
      have hxz : comp x z = false := h1 z (by rw [hz]; exact List.getLast?_concat _)
      have pz : P z := hP1 z (by rw [hz]; simp)
      have pl : P l := hP1 l hl
      rw [hz] at hl p1
      rcases List.mem_append.mp hl with hl | hl
      · rw [List.pairwise_append] at p1
        have hzl : comp z l = false := p1.2.2 l hl z (by simp)
        exact hswo.negTransOn x z l hx pz pl hxz hzl
      · have : l = z := by simpa using hl
        rw [this]; exact hxz
  refine ⟨p1, ?_, ?_⟩
  · rw [List.pairwise_cons]
    exact ⟨fun y hy => hswo.asymm x y hx (hP2 y hy) (h2 y hy), p2⟩
  · intro a ha b hb
    rcases List.mem_cons.mp hb with hb | hb
    · rw [hb]; exact hx1 a ha
    · exact p12 a ha b hb

/-- For a relation that is a strict weak ordering on the records of the vector
the outer loop ends normally with a vector sorted pair by pair. -/
theorem outerLoop_pairSorted_on {P : Sensor → Prop} {comp : Sensor → Sensor → Bool}
    (hswo : StrictWeakOrderingOn P comp)
    (S : List Sensor) (hS : ∀ s ∈ S, P s) (c w fuel : Nat) (hf : S.length ≤ fuel) :
    ∃ st, outerLoop comp fuel 0 { s := S, calls := c, swaps := w } = Exec.done st ∧
      PairSorted comp st.s := by
  obtain ⟨st, h1, h2, h3⟩ :=
    outerLoop_rule comp
      (fun i st => PairSorted comp (st.s.take i) ∧ ∀ s ∈ st.s, P s) S.length
      (by
        intro i st hi hn hinv
        obtain ⟨hsorted, hP⟩ := hinv
        obtain ⟨L1, L2, x, R, hs, hlen, hall, hlast, hrun⟩ := innerLoop_at comp i st (by omega)
        rw [hs] at hP
        refine ⟨_, hrun, ?_, ?_, ?_⟩
        · show (L1 ++ x :: (L2 ++ R)).length = S.length
          rw [length_after_pass, ← hs, hn]
        · show PairSorted comp ((L1 ++ x :: (L2 ++ R)).take (i + 1))
          have e : L1 ++ x :: (L2 ++ R) = (L1 ++ x :: L2) ++ R := by simp
          have hl : (L1 ++ x :: L2).length = i + 1 := by
            simp only [List.length_append, List.length_cons] at hlen ⊢
            omega
          rw [e, List.take_left' hl]
          have hpre : st.s.take i = L1 ++ L2 := by
            rw [hs]; exact List.take_left' hlen
          rw [hpre] at hsorted
          exact pairSorted_after_pass_on hswo L1 L2 x
            (fun l hl => hP l (by simp [hl])) (fun l hl => hP l (by simp [hl]))
            (hP x (by simp)) hsorted hall hlast
        · show ∀ s ∈ L1 ++ x :: (L2 ++ R), P s
          intro s hs'
          exact hP s ((perm_after_pass L1 L2 R x).mem_iff.mp hs'))
      fuel 0 { s := S, calls := c, swaps := w } rfl (Nat.zero_le _) (by omega)
      ⟨by simp [PairSorted], hS⟩
  refine ⟨st, h1, ?_⟩
  have : st.s.take S.length = st.s := by
    rw [← h2]; exact List.take_length _
  rw [← this]; exact h3.1

/-! ## Counting the exchanges -/

/-- A pass of the inner loop keeps a relation between all pairs of the vector
when the moved entry is related to every entry it moves over. -/
theorem pairwise_after_pass {β : Type} (Rel : β → β → Prop) (T1 T2 TR : List β) (t : β)
    (h : ((T1 ++ T2) ++ t :: TR).Pairwise Rel) (h2 : ∀ y ∈ T2, Rel t y) :
    ((T1 ++ t :: T2) ++ TR).Pairwise Rel := by
  rw [List.pairwise_append] at h
  obtain ⟨h12, htr, hcross⟩ := h
  rw [List.pairwise_append] at h12
  obtain ⟨p1, p2, p12⟩ := h12
  rw [List.pairwise_cons] at htr
  obtain ⟨ht, pr⟩ := htr
  rw [List.pairwise_append]
  refine ⟨?_, pr, ?_⟩
  · rw [List.pairwise_append]
    refine ⟨p1, ?_, ?_⟩
    · rw [List.pairwise_cons]
      exact ⟨h2, p2⟩
    · intro a ha b hb
      rcases List.mem_cons.mp hb with hb | hb
      · rw [hb]
        exact hcross a (List.mem_append_left _ ha) t (List.mem_cons_self _ _)
      · exact p12 a ha b hb
  · intro a ha b hb
    rcases List.mem_append.mp ha with ha | ha
    · exact hcross a (List.mem_append_left _ ha) b (List.mem_cons_of_mem _ hb)
    · rcases List.mem_cons.mp ha with ha | ha
      · rw [ha]; exact ht b hb
      · exact hcross a (List.mem_append_right _ ha) b (List.mem_cons_of_mem _ hb)

/-- A pass of the inner loop permutes a vector of any element type. -/
theorem perm_after_pass_gen {β : Type} (T1 T2 TR : List β) (t : β) :
    ((T1 ++ t :: T2) ++ TR).Perm ((T1 ++ T2) ++ t :: TR) := by
  rw [List.append_assoc, List.append_assoc]
  apply List.Perm.append_left
  rw [List.cons_append]
  exact (@List.perm_middle β t T2 TR).symm

/-- The input with every element paired with its index keeps the order. -/
theorem keepsOrder_enum (comp : Sensor → Sensor → Bool) (S : List Sensor) :
    S.enum.Pairwise (KeepsOrder comp) := by
  rw [List.pairwise_iff_getElem]
  intro i j hi hj hij
  rw [List.getElem_enum, List.getElem_enum]
  intro hlt
  exact absurd hlt (Nat.lt_asymm hij)

/-- The outer loop ends normally with a vector whose elements can be paired
with their input indices so that the order is kept. -/
theorem outerLoop_keepsOrder (comp : Sensor → Sensor → Bool) (S : List Sensor)
    (c w fuel : Nat) (hf : S.length ≤ fuel) :
    ∃ st, outerLoop comp fuel 0 { s := S, calls := c, swaps := w } = Exec.done st ∧
      ∃ T : List (Nat × Sensor), T.map Prod.snd = st.s ∧ T.Perm S.enum ∧
        T.Pairwise (KeepsOrder comp) := by
  obtain ⟨st, h1, _, h3⟩ :=
    outerLoop_rule comp
      (fun _ st => ∃ T : List (Nat × Sensor), T.map Prod.snd = st.s ∧ T.Perm S.enum ∧
        T.Pairwise (KeepsOrder comp)) S.length
      (by
        intro i st hi hn hinv
        obtain ⟨T, hmap, hperm, hpw⟩ := hinv
        obtain ⟨L1, L2, x, R, hs, _, hall, _, hrun⟩ := innerLoop_at comp i st (by omega)
        rw [hs] at hmap
        obtain ⟨T12, TQ, hT, hm12, hmQ⟩ := List.map_eq_append_iff.mp hmap
        obtain ⟨T1, T2, hT12, hm1, hm2⟩ := List.map_eq_append_iff.mp hm12
        obtain ⟨t, TR, hTQ, hmt, hmR⟩ := List.map_eq_cons_iff.mp hmQ
        subst hT hT12 hTQ
        refine ⟨_, hrun, ?_, (T1 ++ t :: T2) ++ TR, ?_, ?_, ?_⟩
        · show (L1 ++ x :: (L2 ++ R)).length = S.length
          rw [length_after_pass, ← hs, hn]
        · show List.map Prod.snd ((T1 ++ t :: T2) ++ TR) = L1 ++ x :: (L2 ++ R)
          simp [hm1, hm2, hmt, hmR]
        · exact (perm_after_pass_gen T1 T2 TR t).trans hperm
        · apply pairwise_after_pass (KeepsOrder comp) T1 T2 TR t hpw
          intro y hy _
          rw [hmt]
          exact hall y.2 (by rw [← hm2]; exact List.mem_map_of_mem Prod.snd hy))
      fuel 0 { s := S, calls := c, swaps := w } rfl (Nat.zero_le _) (by omega)
      ⟨S.enum, List.enum_map_snd S, List.Perm.refl _, keepsOrder_enum comp S⟩
  exact ⟨st, h1, h3⟩

/-! ## Uniqueness of the sorted order -/

theorem adjSorted_tail {comp : Sensor → Sensor → Bool} {a : Sensor} {l : List Sensor}
    (h : AdjSorted comp (a :: l)) : AdjSorted comp l := by
  intro k h1 hk x y hx hy
  have hk' : k + 1 < (a :: l).length := by simpa using hk
  have hx' : (a :: l)[k + 1]? = some x := by simpa using hx
  have hy' : (a :: l)[k + 1 - 1]? = some y := by
    obtain ⟨m, rfl⟩ : ∃ m, k = m + 1 := ⟨k - 1, by omega⟩
    simpa using hy
  exact h (k + 1) (by omega) hk' x y hx' hy'

/-- For a strict weak ordering a vector without an adjacent inversion is sorted
pair by pair. -/
theorem AdjSorted.pairSorted {comp : Sensor → Sensor → Bool} (hswo : StrictWeakOrdering comp) :
    ∀ {l : List Sensor}, AdjSorted comp l → PairSorted comp l := by
  intro l
  induction l with
  | nil => intro _; simp [PairSorted]
  | cons a l ih =>
    intro h
    have ht : PairSorted comp l := ih (adjSorted_tail h)
    unfold PairSorted at ht ⊢
    rw [List.pairwise_cons]
    refine ⟨?_, ht⟩
    cases l with
    | nil => intro c hc; exact absurd hc (List.not_mem_nil c)
    | cons b l' =>
      have hba : comp b a = false :=
        h 1 (le_refl 1) (by simp) b a (by simp) (by simp)
      intro c hc
      rcases List.mem_cons.mp hc with hc | hc
      · rw [hc]; exact hba
      · have hcb : comp c b = false := (List.pairwise_cons.mp ht).1 c hc
        exact hswo.negTrans c b a hcb hba

/-- For a strict weak ordering on the records of the vector, a vector without
an adjacent inversion is sorted pair by pair. -/
theorem AdjSorted.pairSorted_on {P : Sensor → Prop} {comp : Sensor → Sensor → Bool}
    (hswo : StrictWeakOrderingOn P comp) :
    ∀ {l : List Sensor}, (∀ s ∈ l, P s) → AdjSorted comp l → PairSorted comp l := by
  intro l
  induction l with
  | nil => intro _ _; simp [PairSorted]
  | cons a l ih =>
    intro hP h
    have ht : PairSorted comp l :=
      ih (fun s hs => hP s (List.mem_cons_of_mem _ hs)) (adjSorted_tail h)
    unfold PairSorted at ht ⊢
    rw [List.pairwise_cons]
    refine ⟨?_, ht⟩
    cases l with
    | nil => intro c hc; exact absurd hc (List.not_mem_nil c)
    | cons b l' =>
      have hba : comp b a = false :=
        h 1 (le_refl 1) (by simp) b a (by simp) (by simp)
      have pa : P a := hP a (List.mem_cons_self _ _)
      have pb : P b := hP b (by simp)
      intro c hc
      rcases List.mem_cons.mp hc with hc' | hc'
      · rw [hc']; exact hba
      · have hcb : comp c b = false := (List.pairwise_cons.mp ht).1 c hc'
        exact hswo.negTransOn c b a (hP c (List.mem_cons_of_mem _ hc)) pb pa hcb hba

/-- Two vectors sorted under `compareSensor` that are permutations of each other,
hold no NaN score and hold each identifier once are equal. -/
theorem pairSorted_unique : ∀ (l1 l2 : List Sensor), l1.Perm l2 →
    (∀ s ∈ l1, s.avg ≠ Score.nan) →
    (l1.map Sensor.id).Nodup → PairSorted compareSensor l1 → PairSorted compareSensor l2 →
    l1 = l2 := by
  intro l1
  induction l1 with
  | nil =>
    intro l2 hp _ _ _ _
    exact (List.Perm.nil_eq hp)
  | cons a l1 ih =>
    intro l2 hp hnan hnd h1 h2
    cases l2 with
    | nil => exact absurd hp.length_eq (by simp)
    | cons b l2 =>
      unfold PairSorted at h1 h2
      rw [List.pairwise_cons] at h1 h2
      rw [List.map_cons, List.nodup_cons] at hnd
      have hab : a = b := by
        have ha : a ∈ b :: l2 := hp.mem_iff.mp (List.mem_cons_self _ _)
        have hb : b ∈ a :: l1 := hp.mem_iff.mpr (List.mem_cons_self _ _)
        rcases List.mem_cons.mp ha with ha | ha
        · exact ha
        · rcases List.mem_cons.mp hb with hb' | hb'
          · exact hb'.symm
          · exfalso
            have na : a.avg ≠ Score.nan := hnan a (List.mem_cons_self _ _)
            have nb : b.avg ≠ Score.nan := hnan b hb
            have f1 : compareSensor a b = false := h2.1 a ha
            have f2 : compareSensor b a = false := h1.1 b hb'
            rw [compareSensor_false_of_ne_nan na nb] at f1
            rw [compareSensor_false_of_ne_nan nb na] at f2
            have hid : b.id = a.id := by
              rcases f1 with f1 | ⟨e1, f1'⟩ <;> rcases f2 with f2 | ⟨e2, f2'⟩
              · rw [Score.lt_asymm f2] at f1; exact Bool.noConfusion f1
              · exact absurd e2.symm (Score.lt_ne f1)
              · exact absurd e1.symm (Score.lt_ne f2)
              · exact le_antisymm f1' f2'
            exact hnd.1 (hid ▸ List.mem_map_of_mem Sensor.id hb')
      subst hab
      rw [ih l2 hp.cons_inv (fun s hs => hnan s (List.mem_cons_of_mem _ hs)) hnd.2 h1.2 h2.2]

/-! ## The sentences of the specification -/

/-- C1: after `insertion_sort(S, compareSensor)` the check `isSorted` answers
true, and no adjacent pair `(a, b)` of the result has `compareSensor(b, a)`.
This needs only that `compareSensor` never holds in both directions, so it
holds for NaN scores as well. -/
theorem insertion_sort_isSorted (S : List Sensor) :
    ∃ st, insertion_sort S compareSensor = Exec.done st ∧
      isSorted st.s = Exec.done true ∧ AdjSorted compareSensor st.s := by
  obtain ⟨st, h1, h2⟩ :=
    outerLoop_adjSorted_of_asymm compareSensor_asymm S 0 0 S.length (le_refl _)
  exact ⟨st, h1, (isSorted_eq_true_iff st.s).mpr h2, h2⟩

/-- C2: for every relation `comp`, strict weak ordering or not,
`insertion_sort(S, comp)` ends with a permutation of `S`; the multiset of
identifiers is the same before and after. -/
theorem insertion_sort_perm (S : List Sensor) (comp : Sensor → Sensor → Bool) :
    ∃ st, insertion_sort S comp = Exec.done st ∧ st.s.Perm S ∧
      (Multiset.ofList (st.s.map Sensor.id) = Multiset.ofList (S.map Sensor.id)) := by
  obtain ⟨st, h1, h2⟩ := outerLoop_perm comp S 0 0 S.length (le_refl _)
  exact ⟨st, h1, h2, Multiset.coe_eq_coe.mpr (h2.map Sensor.id)⟩

/-- C4: on a vector for which `isSorted` answers true,
`insertion_sort(S, compareSensor)` leaves the vector as it is, element for
element; hence sorting a second time changes nothing. -/
theorem insertion_sort_idempotent :
    (∀ S : List Sensor, isSorted S = Exec.done true →
      ∃ st, insertion_sort S compareSensor = Exec.done st ∧ st.s = S) ∧
    (∀ S : List Sensor, ∃ st1 st2, insertion_sort S compareSensor = Exec.done st1 ∧
      insertion_sort st1.s compareSensor = Exec.done st2 ∧ st2.s = st1.s) := by
  have part1 : ∀ S : List Sensor, AdjSorted compareSensor S →
      ∃ st, insertion_sort S compareSensor = Exec.done st ∧ st.s = S := by
    intro S hS
    obtain ⟨st, h1, h2, _⟩ := outerLoop_adjSorted compareSensor S hS 0 0 S.length (le_refl _)
    exact ⟨st, h1, h2⟩
  refine ⟨fun S hS => part1 S ((isSorted_eq_true_iff S).mp hS), ?_⟩
  intro S
  obtain ⟨st1, h1, h2⟩ :=
    outerLoop_adjSorted_of_asymm compareSensor_asymm S 0 0 S.length (le_refl _)
  obtain ⟨st2, h3, h4⟩ := part1 st1.s h2
  exact ⟨st1, st2, h1, h3, h4⟩

theorem insertion_sort_idempotent_witness :
    isSorted [⟨7, 9, []⟩, ⟨1, 5, []⟩, ⟨3, 5, []⟩] = Exec.done true ∧
    ∃ st, insertion_sort [⟨7, 9, []⟩, ⟨1, 5, []⟩, ⟨3, 5, []⟩] compareSensor = Exec.done st ∧
      st.s = [⟨7, 9, []⟩, ⟨1, 5, []⟩, ⟨3, 5, []⟩] :=
  ⟨by decide, insertion_sort_idempotent.1 [⟨7, 9, []⟩, ⟨1, 5, []⟩, ⟨3, 5, []⟩] (by decide)⟩

/-- C5, amended: for two records whose scores are not NaN,
`compareSensor(a, b)` is true exactly when `a.avg > b.avg`, or
`a.avg == b.avg` and `a.id < b.id`, and false in every other case; when a
score is NaN it returns `a.id < b.id`. -/
theorem compareSensor_contract (a b : Sensor) :
    (a.avg ≠ Score.nan → b.avg ≠ Score.nan → OrderContract a b) ∧
    ((a.avg = Score.nan ∨ b.avg = Score.nan) → compareSensor a b = decide (a.id < b.id)) := by
  refine ⟨?_, compareSensor_nan a b⟩
  intro ha hb
  have h : compareSensor a b = true ↔
      (a.avg.gt b.avg = true ∨ (a.avg.eq b.avg = true ∧ a.id < b.id)) := by
    rw [compareSensor_true_of_ne_nan ha hb, Score.eq_eq_true_iff]
    unfold Score.gt
    constructor
    · rintro (h | ⟨h1, h2⟩)
      · exact Or.inl h
      · exact Or.inr ⟨⟨ha, h1⟩, h2⟩
    · rintro (h | ⟨⟨_, h1⟩, h2⟩)
      · exact Or.inl h
      · exact Or.inr ⟨h1, h2⟩
  refine ⟨h, ?_⟩
  rw [← h, Bool.not_eq_true]

theorem compareSensor_contract_witness :
    OrderContract ⟨3, 5, []⟩ ⟨7, 5, []⟩ ∧
    compareSensor ⟨1, Score.nan, []⟩ ⟨2, 5, []⟩ = decide ((1 : Int) < 2) :=
  ⟨(compareSensor_contract ⟨3, 5, []⟩ ⟨7, 5, []⟩).1 (by decide) (by decide),
    (compareSensor_contract ⟨1, Score.nan, []⟩ ⟨2, 5, []⟩).2 (Or.inl rfl)⟩

/-- C5 as stated fails at a NaN score: for `a = {id 1, avg NaN}` and
`b = {id 2, avg 5}` neither `a.avg > b.avg` nor `a.avg == b.avg` holds, and
`compareSensor(a, b)` is true. -/
theorem compareSensor_contract_nan :
    ¬ OrderContract ⟨1, Score.nan, []⟩ ⟨2, 5, []⟩ := by
  unfold OrderContract
  decide

/-- C6: on records whose scores are exact numbers (no NaN) `compareSensor` is a
strict weak ordering: irreflexive, asymmetric, transitive, and with a
transitive incomparability relation.  It is irreflexive and asymmetric on all
records, NaN or not. -/
theorem compareSensor_strictWeakOrdering :
    StrictWeakOrderingOn (fun a => a.avg ≠ Score.nan) compareSensor ∧
    (∀ a : Sensor, compareSensor a a = false) ∧
    (∀ a b : Sensor, compareSensor a b = true → compareSensor b a = false) := by
  refine ⟨compareSensor_swoOn, ?_, compareSensor_asymm⟩
  intro a
  rw [compareSensor_eq_false_iff, Score.lt_irrefl]
  exact ⟨rfl, Or.inr (le_refl _)⟩

/-- C7, amended: when no score of `S` is NaN and `S` holds two records of equal
score, the one with the smaller identifier stands at the smaller index after
`insertion_sort(S, compareSensor)`, wherever the two stood in `S`; this holds
for every such pair of the result. -/
theorem insertion_sort_tie_break (S : List Sensor) (hS : ∀ s ∈ S, s.avg ≠ Score.nan)
    (a b : Sensor) (ha : a ∈ S) (hb : b ∈ S) (havg : a.avg = b.avg) (hid : a.id < b.id) :
    ∃ st, insertion_sort S compareSensor = Exec.done st ∧
      (∃ p q : Nat, p < q ∧ st.s[p]? = some a ∧ st.s[q]? = some b) ∧
      (∀ (p q : Nat) (a' b' : Sensor), st.s[p]? = some a' → st.s[q]? = some b' →
        a'.avg = b'.avg → a'.id < b'.id → p < q) := by
  obtain ⟨st, h1, h2⟩ :=
    outerLoop_pairSorted_on compareSensor_swoOn S hS 0 0 S.length (le_refl _)
  obtain ⟨st', h1', h3⟩ := outerLoop_perm compareSensor S 0 0 S.length (le_refl _)
  have hst : st' = st := by
    rw [h1] at h1'; injection h1' with h; exact h.symm
  subst hst
  have key : ∀ (p q : Nat) (a' b' : Sensor), st'.s[p]? = some a' → st'.s[q]? = some b' →
      a'.avg = b'.avg → a'.id < b'.id → p < q := by
    intro p q a' b' hp hq he hlt
    by_contra hpq
    have na : a'.avg ≠ Score.nan := hS a' (h3.mem_iff.mp (List.getElem?_mem hp))
    have nb : b'.avg ≠ Score.nan := hS b' (h3.mem_iff.mp (List.getElem?_mem hq))
    obtain ⟨hp', hpe⟩ := List.getElem?_eq_some.mp hp
    obtain ⟨hq', hqe⟩ := List.getElem?_eq_some.mp hq
    rcases Nat.eq_or_lt_of_le (not_lt.mp hpq) with heq | hlt'
    · subst heq
      rw [hp] at hq
      cases hq
      exact lt_irrefl _ hlt
    · have hpw := (List.pairwise_iff_getElem.mp h2) q p hq' hp' hlt'
      rw [hpe, hqe] at hpw
      have htrue : compareSensor a' b' = true :=
        (compareSensor_true_of_ne_nan na nb).mpr (Or.inr ⟨he, hlt⟩)
      rw [htrue] at hpw
      exact Bool.noConfusion hpw
  refine ⟨st', h1, ?_, key⟩
  obtain ⟨p, hp⟩ := List.mem_iff_getElem?.mp (h3.mem_iff.mpr ha)
  obtain ⟨q, hq⟩ := List.mem_iff_getElem?.mp (h3.mem_iff.mpr hb)
  exact ⟨p, q, key p q a b hp hq havg hid, hp, hq⟩

theorem insertion_sort_tie_break_witness :
    ∃ st, insertion_sort [⟨7, 5, []⟩, ⟨1, 9, []⟩, ⟨3, 5, []⟩] compareSensor = Exec.done st ∧
      (∃ p q : Nat, p < q ∧ st.s[p]? = some (⟨3, 5, []⟩ : Sensor) ∧
        st.s[q]? = some (⟨7, 5, []⟩ : Sensor)) ∧
      (∀ (p q : Nat) (a' b' : Sensor), st.s[p]? = some a' → st.s[q]? = some b' →
        a'.avg = b'.avg → a'.id < b'.id → p < q) :=
  insertion_sort_tie_break [⟨7, 5, []⟩, ⟨1, 9, []⟩, ⟨3, 5, []⟩] (by decide)
    ⟨3, 5, []⟩ ⟨7, 5, []⟩ (by decide) (by decide) (by decide) (by decide)

/-- C7 as stated fails when a score is NaN: `insertion_sort` leaves the vector
`[{7, 5}, {0, 1}, {1, NaN}, {3, 5}]` as it is, so the record with identifier 7
stays at index 0 and the record with identifier 3 at index 3, with equal
scores. -/
theorem insertion_sort_tie_break_nan :
    (⟨3, 5, []⟩ : Sensor) ∈ [(⟨7, 5, []⟩ : Sensor), ⟨0, 1, []⟩, ⟨1, Score.nan, []⟩, ⟨3, 5, []⟩] ∧
    (⟨7, 5, []⟩ : Sensor) ∈ [(⟨7, 5, []⟩ : Sensor), ⟨0, 1, []⟩, ⟨1, Score.nan, []⟩, ⟨3, 5, []⟩] ∧
    ∃ st, insertion_sort [⟨7, 5, []⟩, ⟨0, 1, []⟩, ⟨1, Score.nan, []⟩, ⟨3, 5, []⟩] compareSensor
        = Exec.done st ∧
      st.s[0]? = some ⟨7, 5, []⟩ ∧ st.s[3]? = some ⟨3, 5, []⟩ ∧
      ¬ (∀ (p q : Nat) (a' b' : Sensor), st.s[p]? = some a' → st.s[q]? = some b' →
        a'.avg = b'.avg → a'.id < b'.id → p < q) := by
  refine ⟨by decide, by decide,
    ⟨[⟨7, 5, []⟩, ⟨0, 1, []⟩, ⟨1, Score.nan, []⟩, ⟨3, 5, []⟩], 3, 0⟩, by decide, rfl, rfl, ?_⟩
  intro h
  have := h 3 0 ⟨3, 5, []⟩ ⟨7, 5, []⟩ rfl rfl rfl (by decide)
  exact absurd this (by decide)

/-- C8: on the empty vector and on a one-element vector `insertion_sort` ends
normally, returns the vector as it was, and calls neither `comp` nor `swap`. -/
theorem insertion_sort_small_noop (comp : Sensor → Sensor → Bool) :
    insertion_sort [] comp = Exec.done { s := [], calls := 0, swaps := 0 } ∧
    ∀ x : Sensor, insertion_sort [x] comp = Exec.done { s := [x], calls := 0, swaps := 0 } :=
  ⟨rfl, fun _ => rfl⟩

/-- C9: `isSorted(S)` always answers; it answers true exactly when no index `k`
with `1 <= k < size(S)` has `compareSensor(S[k], S[k-1])`, so in particular on
the empty and on every one-element vector. -/
theorem isSorted_contract (S : List Sensor) :
    (isSorted S = Exec.done true ↔ AdjSorted compareSensor S) ∧
    (isSorted S = Exec.done false ↔ ¬ AdjSorted compareSensor S) ∧
    isSorted [] = Exec.done true ∧ (∀ x : Sensor, isSorted [x] = Exec.done true) := by
  refine ⟨isSorted_eq_true_iff S, ?_, rfl, fun _ => rfl⟩
  obtain ⟨r, hr, hiff⟩ := isSorted_spec S
  rw [hr, ← hiff]
  cases r <;> simp

/-- C10: `insertion_sort` is total for every vector and every relation `comp`:
both loops are left through their guards and every access `s[j]`, `s[j-1]` is
inside the vector, whatever the iteration budget from `size(S)` on. -/
theorem insertion_sort_total (S : List Sensor) (comp : Sensor → Sensor → Bool) :
    (∃ st, insertion_sort S comp = Exec.done st ∧ st.s.length = S.length) ∧
    (∀ fuel, S.length ≤ fuel →
      outerLoop comp fuel 0 { s := S, calls := 0, swaps := 0 } = insertion_sort S comp) ∧
    (∀ (i : Nat) (st : Run), i < st.s.length →
      ∃ st', innerLoop comp i st = Exec.done st' ∧ st'.s.length = st.s.length) := by
  obtain ⟨st, h1, h2⟩ := outerLoop_perm comp S 0 0 S.length (le_refl _)
  refine ⟨⟨st, h1, h2.length_eq⟩, ?_, ?_⟩
  · intro fuel hf
    have h1' : insertion_sort S comp = Exec.done st := h1
    rw [h1']
    exact outerLoop_budget comp S.length 0 _ st h1 fuel hf
  · intro i st0 hi
    obtain ⟨L1, L2, x, R, hs, _, _, _, hrun⟩ := innerLoop_at comp i st0 hi
    refine ⟨_, hrun, ?_⟩
    show (L1 ++ x :: (L2 ++ R)).length = st0.s.length
    rw [length_after_pass, ← hs]

theorem insertion_sort_total_witness :
    outerLoop (fun _ _ => true) 7 0
        { s := [⟨3, 5, []⟩, ⟨7, 9, []⟩, ⟨1, 5, []⟩], calls := 0, swaps := 0 }
      = insertion_sort [⟨3, 5, []⟩, ⟨7, 9, []⟩, ⟨1, 5, []⟩] (fun _ _ => true) ∧
    ∃ st', innerLoop (fun _ _ => true) 2
        { s := [⟨3, 5, []⟩, ⟨7, 9, []⟩, ⟨1, 5, []⟩], calls := 0, swaps := 0 } = Exec.done st' ∧
      st'.s.length = 3 :=
  ⟨(insertion_sort_total [⟨3, 5, []⟩, ⟨7, 9, []⟩, ⟨1, 5, []⟩] (fun _ _ => true)).2.1 7
      (by decide),
    (insertion_sort_total [⟨3, 5, []⟩, ⟨7, 9, []⟩, ⟨1, 5, []⟩] (fun _ _ => true)).2.2 2
      { s := [⟨3, 5, []⟩, ⟨7, 9, []⟩, ⟨1, 5, []⟩], calls := 0, swaps := 0 } (by decide)⟩

/-- C11: for records `a` and `b` held at any two addresses,
`compareSensorPtr(&a, &b)` equals `compareSensor(a, b)`; the result depends
only on `avg` and `id` of the pointees, never on the addresses. -/
theorem compareSensorPtr_eq (mem : Store) (p q : Nat) (a b : Sensor)
    (hp : mem p = some a) (hq : mem q = some b) :
    compareSensorPtr mem p q = some (compareSensor a b) ∧
    ∀ (mem' : Store) (p' q' : Nat) (a' b' : Sensor),
      mem' p' = some a' → mem' q' = some b' →
      a'.avg = a.avg → a'.id = a.id → b'.avg = b.avg → b'.id = b.id →
      compareSensorPtr mem' p' q' = compareSensorPtr mem p q := by
  have h0 : compareSensorPtr mem p q = some (compareSensor a b) := by
    simp [compareSensorPtr, hp, hq]
  refine ⟨h0, ?_⟩
  intro mem' p' q' a' b' hp' hq' e1 e2 e3 e4
  rw [h0]
  simp only [compareSensorPtr, hp', hq', compareSensor, e1, e2, e3, e4]

theorem compareSensorPtr_eq_witness :
    compareSensorPtr (fun n => if n = 16 then some ⟨3, 5, []⟩ else
        if n = 8 then some ⟨7, 5, []⟩ else none) 16 8
      = some (compareSensor ⟨3, 5, []⟩ ⟨7, 5, []⟩) ∧
    compareSensorPtr (fun n => if n = 16 then some ⟨3, 5, []⟩ else
        if n = 8 then some ⟨7, 5, []⟩ else none) 16 8 = some true :=
  ⟨(compareSensorPtr_eq (fun n => if n = 16 then some ⟨3, 5, []⟩ else
        if n = 8 then some ⟨7, 5, []⟩ else none) 16 8 ⟨3, 5, []⟩ ⟨7, 5, []⟩
      (by decide) (by decide)).1, by decide⟩

/-- C12: for two records with different identifiers exactly one of
`compareSensor(a, b)` and `compareSensor(b, a)` is true; with scores that are
exact numbers (no NaN), both are false exactly when the scores and the
identifiers are equal. -/
theorem compareSensor_tie (a b : Sensor) :
    (a.id ≠ b.id →
      (compareSensor a b = true ∧ compareSensor b a = false) ∨
      (compareSensor a b = false ∧ compareSensor b a = true)) ∧
    (a.avg ≠ Score.nan → b.avg ≠ Score.nan →
      ((compareSensor a b = false ∧ compareSensor b a = false) ↔
        (a.avg = b.avg ∧ a.id = b.id))) := by
  constructor
  · intro hne
    cases hab : compareSensor a b with
    | true => exact Or.inl ⟨rfl, compareSensor_asymm a b hab⟩
    | false =>
      cases hba : compareSensor b a with
      | true => exact Or.inr ⟨rfl, rfl⟩
      | false =>
        exfalso
        rw [compareSensor_eq_false_iff] at hab hba
        obtain ⟨g1, g2⟩ := hab
        obtain ⟨g3, g4⟩ := hba
        rw [g3] at g2
        rw [g1] at g4
        have e1 : b.id ≤ a.id := by simpa using g2
        have e2 : a.id ≤ b.id := by simpa using g4
        exact hne (le_antisymm e2 e1)
  · intro ha hb
    rw [compareSensor_false_of_ne_nan ha hb, compareSensor_false_of_ne_nan hb ha]
    constructor
    · rintro ⟨h1 | ⟨h1, h1'⟩, h2 | ⟨h2, h2'⟩⟩
      · rw [Score.lt_asymm h2] at h1; exact Bool.noConfusion h1
      · exact absurd h2.symm (Score.lt_ne h1)
      · exact absurd h1.symm (Score.lt_ne h2)
      · exact ⟨h1, le_antisymm h2' h1'⟩
    · rintro ⟨h1, h2⟩
      exact ⟨Or.inr ⟨h1, h2.ge⟩, Or.inr ⟨h1.symm, h2.le⟩⟩

theorem compareSensor_tie_witness :
    ((compareSensor ⟨3, 5, []⟩ ⟨7, 5, []⟩ = true ∧ compareSensor ⟨7, 5, []⟩ ⟨3, 5, []⟩ = false) ∨
      (compareSensor ⟨3, 5, []⟩ ⟨7, 5, []⟩ = false ∧
        compareSensor ⟨7, 5, []⟩ ⟨3, 5, []⟩ = true)) ∧
    ((compareSensor ⟨3, 5, []⟩ ⟨3, 5, [1]⟩ = false ∧
        compareSensor ⟨3, 5, [1]⟩ ⟨3, 5, []⟩ = false) ↔
      ((5 : Score) = 5 ∧ (3 : Int) = 3)) :=
  ⟨(compareSensor_tie ⟨3, 5, []⟩ ⟨7, 5, []⟩).1 (by decide),
    (compareSensor_tie ⟨3, 5, []⟩ ⟨3, 5, [1]⟩).2 (by decide) (by decide)⟩

/-- C13: `insertion_sort` is stable for every relation `comp`: pair every
element of the result with the index at which it stood in the input; if `x`
stood before `y` in the input and `comp(y, x)` is false, then `x` stands before
`y` in the result.  When no record occurs twice in the input this reads on the
records themselves. -/
theorem insertion_sort_stable (S : List Sensor) (comp : Sensor → Sensor → Bool) :
    ∃ st, insertion_sort S comp = Exec.done st ∧
      (∃ T : List (Nat × Sensor), T.Perm S.enum ∧ T.map Prod.snd = st.s ∧
        ∀ (k1 k2 i j : Nat) (x y : Sensor), T[k1]? = some (i, x) → T[k2]? = some (j, y) →
          i < j → comp y x = false → k1 < k2) ∧
      (S.Nodup → ∀ (i j k1 k2 : Nat) (x y : Sensor), S[i]? = some x → S[j]? = some y →
        i < j → comp y x = false → st.s[k1]? = some x → st.s[k2]? = some y → k1 < k2) := by
  obtain ⟨st, h1, T, hmap, hperm, hpw⟩ := outerLoop_keepsOrder comp S 0 0 S.length (le_refl _)
  have key : ∀ (k1 k2 i j : Nat) (x y : Sensor), T[k1]? = some (i, x) →
      T[k2]? = some (j, y) → i < j → comp y x = false → k1 < k2 := by
    intro k1 k2 i j x y hk1 hk2 hij hc
    by_contra hlt
    obtain ⟨hb1, he1⟩ := List.getElem?_eq_some.mp hk1
    obtain ⟨hb2, he2⟩ := List.getElem?_eq_some.mp hk2
    rcases Nat.eq_or_lt_of_le (not_lt.mp hlt) with heq | hlt'
    · subst heq
      rw [hk1] at hk2
      injection hk2 with h
      injection h with h' _
      omega
    · have hko := (List.pairwise_iff_getElem.mp hpw) k2 k1 hb2 hb1 hlt'
      rw [he1, he2] at hko
      have := hko hij
      rw [hc] at this
      exact Bool.noConfusion this
  refine ⟨st, h1, ⟨T, hperm, hmap, key⟩, ?_⟩
  intro hnd i j k1 k2 x y hi hj hij hc hk1 hk2
  have origin : ∀ (k m : Nat) (z : Sensor), st.s[k]? = some z → S[m]? = some z →
      T[k]? = some (m, z) := by
    intro k m z hk hm
    rw [← hmap, List.getElem?_map] at hk
    cases hT : T[k]? with
    | none => rw [hT] at hk; simp at hk
    | some t =>
      rw [hT] at hk
      have hz : t.2 = z := by simpa using hk
      have hmem : t ∈ S.enum := hperm.mem_iff.mp (List.getElem?_mem hT)
      have hS : S[t.1]? = some t.2 := List.mk_mem_enum_iff_getElem?.mp hmem
      rw [hz, ← hm] at hS
      have hlt : t.1 < S.length := by
        rw [hm] at hS
        exact (List.getElem?_eq_some.mp hS).1
      have htm : t.1 = m := (List.getElem?_inj hlt hnd hS)
      rw [← htm, ← hz]
  exact key k1 k2 i j x y (origin k1 i x hk1 hi) (origin k2 j y hk2 hj) hij hc

/-- C14: on a vector of `n >= 1` elements without an adjacent pair
`(prev, next)` with `comp(next, prev)`, `insertion_sort(S, comp)` calls `comp`
exactly `n - 1` times and makes no exchange. -/
theorem insertion_sort_best_case (S : List Sensor) (comp : Sensor → Sensor → Bool)
    (hn : 1 ≤ S.length) (hS : AdjSorted comp S) :
    ∃ st, insertion_sort S comp = Exec.done st ∧
      st.calls + 1 = S.length ∧ st.swaps = 0 ∧ st.s = S := by
  obtain ⟨st, h1, h2, h3, h4⟩ := outerLoop_adjSorted comp S hS 0 0 S.length (le_refl _)
  exact ⟨st, h1, by omega, h3, h2⟩

theorem insertion_sort_best_case_witness :
    ∃ st, insertion_sort [⟨7, 9, []⟩, ⟨1, 5, []⟩, ⟨3, 5, []⟩] compareSensor = Exec.done st ∧
      st.calls + 1 = 3 ∧ st.swaps = 0 ∧ st.s = [⟨7, 9, []⟩, ⟨1, 5, []⟩, ⟨3, 5, []⟩] :=
  insertion_sort_best_case [⟨7, 9, []⟩, ⟨1, 5, []⟩, ⟨3, 5, []⟩] compareSensor (by decide)
    ((isSorted_eq_true_iff _).mp (by decide))

/-- C15: in the driver the block of case 5 has no `break`: when its assertions
hold, `test(5)` runs the case-5 block and then continues with everything
`test(6)` runs, starting with the case-6 block, while `test(4)` runs the case-4
block alone. -/
theorem test_case5_falls_through (passes : Block → Bool) (h5 : passes Block.case5 = true) :
    (test passes 5).blocks = Block.case5 :: (test passes 6).blocks ∧
    (test passes 5).aborted = (test passes 6).aborted ∧
    (test passes 6).blocks.head? = some Block.case6 ∧
    (test passes 4).blocks = [Block.case4] := by
  refine ⟨?_, ?_, ?_, ?_⟩
  · simp [test, testArms, enterCase, runArms, h5]
  · simp [test, testArms, enterCase, runArms, h5]
  · cases h6 : passes Block.case6 <;> simp [test, testArms, enterCase, runArms, h6]
  · cases h4 : passes Block.case4 <;> simp [test, testArms, enterCase, runArms, h4]

theorem test_case5_falls_through_witness :
    (test (fun _ => true) 5).blocks = Block.case5 :: (test (fun _ => true) 6).blocks ∧
    (test (fun _ => true) 5).aborted = (test (fun _ => true) 6).aborted ∧
    (test (fun _ => true) 6).blocks.head? = some Block.case6 ∧
    (test (fun _ => true) 4).blocks = [Block.case4] :=
  test_case5_falls_through (fun _ => true) rfl

/-- C17, amended: for two vectors that are permutations of each other, hold no
NaN score and hold each identifier once, `insertion_sort` with `compareSensor`
produces the same sequence, element for element; it is the only sorted
permutation of the input, so every correct sort with `compareSensor` produces
it. -/
theorem insertion_sort_order_independent (S T : List Sensor) (hperm : S.Perm T)
    (hS : ∀ s ∈ S, s.avg ≠ Score.nan) (hnd : (S.map Sensor.id).Nodup) :
    ∃ st1 st2, insertion_sort S compareSensor = Exec.done st1 ∧
      insertion_sort T compareSensor = Exec.done st2 ∧ st1.s = st2.s ∧
      ∀ U : List Sensor, U.Perm S → AdjSorted compareSensor U → U = st1.s := by
  have hT : ∀ s ∈ T, s.avg ≠ Score.nan := fun s hs => hS s (hperm.mem_iff.mpr hs)
  obtain ⟨st1, h1, s1⟩ :=
    outerLoop_pairSorted_on compareSensor_swoOn S hS 0 0 S.length (le_refl _)
  obtain ⟨st1', h1', p1⟩ := outerLoop_perm compareSensor S 0 0 S.length (le_refl _)
  obtain ⟨st2, h2, s2⟩ :=
    outerLoop_pairSorted_on compareSensor_swoOn T hT 0 0 T.length (le_refl _)
  obtain ⟨st2', h2', p2⟩ := outerLoop_perm compareSensor T 0 0 T.length (le_refl _)
  have e1 : st1' = st1 := by
    rw [h1] at h1'; injection h1' with h; exact h.symm
  have e2 : st2' = st2 := by
    rw [h2] at h2'; injection h2' with h; exact h.symm
  subst e1 e2
  have hnd1 : (st1'.s.map Sensor.id).Nodup := (p1.map Sensor.id).nodup_iff.mpr hnd
  have hn1 : ∀ s ∈ st1'.s, s.avg ≠ Score.nan := fun s hs => hS s (p1.mem_iff.mp hs)
  refine ⟨st1', st2', h1, h2, ?_, ?_⟩
  · exact pairSorted_unique st1'.s st2'.s (p1.trans (hperm.trans p2.symm)) hn1 hnd1 s1 s2
  · intro U hU hsorted
    have hndU : (U.map Sensor.id).Nodup := (hU.map Sensor.id).nodup_iff.mpr hnd
    have hnU : ∀ s ∈ U, s.avg ≠ Score.nan := fun s hs => hS s (hU.mem_iff.mp hs)
    exact pairSorted_unique U st1'.s (hU.trans p1.symm) hnU hndU
      (hsorted.pairSorted_on compareSensor_swoOn hnU) s1

theorem insertion_sort_order_independent_witness :
    ∃ st1 st2, insertion_sort [⟨3, 5, []⟩, ⟨7, 9, []⟩, ⟨1, 5, []⟩] compareSensor = Exec.done st1 ∧
      insertion_sort [⟨1, 5, []⟩, ⟨3, 5, []⟩, ⟨7, 9, []⟩] compareSensor = Exec.done st2 ∧
      st1.s = st2.s ∧
      ∀ U : List Sensor, U.Perm [⟨3, 5, []⟩, ⟨7, 9, []⟩, ⟨1, 5, []⟩] →
        AdjSorted compareSensor U → U = st1.s :=
  insertion_sort_order_independent [⟨3, 5, []⟩, ⟨7, 9, []⟩, ⟨1, 5, []⟩]
    [⟨1, 5, []⟩, ⟨3, 5, []⟩, ⟨7, 9, []⟩] (by decide) (by decide) (by decide)

/-- C17 as stated fails when a score is NaN: the vector
`[{7, 5}, {0, 1}, {1, NaN}, {3, 5}]` and its permutation
`[{3, 5}, {7, 5}, {0, 1}, {1, NaN}]`, with distinct identifiers, are both left
as they are by `insertion_sort`, so the two results differ. -/
theorem insertion_sort_order_dependent_nan :
    List.Perm [(⟨7, 5, []⟩ : Sensor), ⟨0, 1, []⟩, ⟨1, Score.nan, []⟩, ⟨3, 5, []⟩]
      [⟨3, 5, []⟩, ⟨7, 5, []⟩, ⟨0, 1, []⟩, ⟨1, Score.nan, []⟩] ∧
    ([(⟨7, 5, []⟩ : Sensor), ⟨0, 1, []⟩, ⟨1, Score.nan, []⟩, ⟨3, 5, []⟩].map Sensor.id).Nodup ∧
    insertion_sort [⟨7, 5, []⟩, ⟨0, 1, []⟩, ⟨1, Score.nan, []⟩, ⟨3, 5, []⟩] compareSensor
      = Exec.done ⟨[⟨7, 5, []⟩, ⟨0, 1, []⟩, ⟨1, Score.nan, []⟩, ⟨3, 5, []⟩], 3, 0⟩ ∧
    insertion_sort [⟨3, 5, []⟩, ⟨7, 5, []⟩, ⟨0, 1, []⟩, ⟨1, Score.nan, []⟩] compareSensor
      = Exec.done ⟨[⟨3, 5, []⟩, ⟨7, 5, []⟩, ⟨0, 1, []⟩, ⟨1, Score.nan, []⟩], 3, 0⟩ ∧
    [(⟨7, 5, []⟩ : Sensor), ⟨0, 1, []⟩, ⟨1, Score.nan, []⟩, ⟨3, 5, []⟩]
      ≠ [⟨3, 5, []⟩, ⟨7, 5, []⟩, ⟨0, 1, []⟩, ⟨1, Score.nan, []⟩] := by
  decide

theorem test_run_all :
    test (fun _ => true) 5 = ⟨[Block.case5, Block.case6, Block.case7to10], false⟩ ∧
    test (fun _ => true) 6 = ⟨[Block.case6, Block.case7to10], false⟩ ∧
    test (fun _ => true) 9 = ⟨[Block.case7to10], false⟩ ∧
    test (fun _ => true) 3 = ⟨[Block.case3], false⟩ ∧
    test (fun _ => true) 11 = ⟨[Block.dflt], false⟩ ∧
    test (fun b => decide (b ≠ Block.case5)) 5 = ⟨[Block.case5], true⟩ := by
  decide


theorem insertion_sort_run_three :
    insertion_sort [⟨3, 5, []⟩, ⟨7, 9, []⟩, ⟨1, 5, []⟩] compareSensor
      = Exec.done ⟨[⟨7, 9, []⟩, ⟨1, 5, []⟩, ⟨3, 5, []⟩], 3, 2⟩ := by
  decide

theorem insertion_sort_run_always_true :
    insertion_sort [⟨3, 5, []⟩, ⟨7, 9, []⟩, ⟨1, 5, []⟩] (fun _ _ => true)
      = Exec.done ⟨[⟨1, 5, []⟩, ⟨7, 9, []⟩, ⟨3, 5, []⟩], 3, 3⟩ := by
  decide

theorem compareSensor_run_nan :
    compareSensor ⟨2, Score.nan, []⟩ ⟨1, 5, []⟩ = false ∧
    compareSensor ⟨1, 5, []⟩ ⟨3, 9, []⟩ = false ∧
    compareSensor ⟨2, Score.nan, []⟩ ⟨3, 9, []⟩ = true ∧
    compareSensor ⟨3, 9, []⟩ ⟨1, 5, []⟩ = true ∧
    compareSensor ⟨1, 5, []⟩ ⟨2, Score.nan, []⟩ = true ∧
    compareSensor ⟨1, Score.negInf, []⟩ ⟨2, Score.posInf, []⟩ = false ∧
    compareSensor ⟨2, Score.posInf, []⟩ ⟨1, 5, []⟩ = true := by
  decide

theorem isSorted_run_three :
    isSorted [⟨7, 9, []⟩, ⟨1, 5, []⟩, ⟨3, 5, []⟩] = Exec.done true ∧
    isSorted [⟨3, 5, []⟩, ⟨7, 9, []⟩, ⟨1, 5, []⟩] = Exec.done false := by
  decide

end SortArrays
